import Mathlib

/-!
Verification of the cpp-pubsub broker core against its specification.

Strings are modelled as `List Char`.  The wildcard topic filter of
`src/topic.cpp` translates a pattern into an ECMAScript regex string
(`wildcardToRegex`) and then calls `std::regex_match` (whole-string,
anchored matching).  We model the regex fragment that
`wildcardToRegex` can emit: literal characters, escaped characters,
the class `[^/]`, the any-character atom `.`, and the one-character
quantifiers `? * +`, via a tokenizer (`lexRegexF`) followed by
quantifier attachment (`groupToks`).  A regex string outside this
fragment (which can only arise from patterns containing `?`, `{`,
`}` or `|` in positions that form lazy quantifiers, alternations or
brace quantifiers) is conservatively treated as non-matching; every
universally quantified theorem below about wildcard matching is
restricted to patterns free of those four characters, for which
`parse_wildcardToRegex` proves the translation stays inside the
fragment, and the remaining theorems use concrete patterns whose
compiled regex lies inside it.
-/

namespace PubSub

/-- Mirror of `WildcardTopicFilter::wildcardToRegex` (src/topic.cpp):
`+` becomes `[^/]+`, `#` becomes `.*`, the metacharacters
`. * [ ] ( ) \ ^ $` are escaped with a backslash, and every other
character is copied verbatim. -/
def wildcardToRegex : List Char → List Char
  | [] => []
  | c :: rest =>
    if c = '+' then '[' :: '^' :: '/' :: ']' :: '+' :: wildcardToRegex rest
    else if c = '#' then '.' :: '*' :: wildcardToRegex rest
    else if c = '.' ∨ c = '*' ∨ c = '[' ∨ c = ']' ∨ c = '(' ∨ c = ')' ∨
            c = '\\' ∨ c = '^' ∨ c = '$' then
      '\\' :: c :: wildcardToRegex rest
    else c :: wildcardToRegex rest

/-- Base regex atoms that `wildcardToRegex` output can contain. -/
inductive RBase where
  | lit (c : Char)
  | nonSlash
  | dot
  deriving DecidableEq, Repr

/-- One-character regex quantifiers. -/
inductive RQuant where
  | one
  | opt
  | star
  | plus
  deriving DecidableEq, Repr

/-- A quantified regex atom. -/
structure RAtom where
  base : RBase
  quant : RQuant
  deriving DecidableEq, Repr

/-- ECMAScript line terminators, which the `.` atom does not match. -/
def isLineTerminator (c : Char) : Bool :=
  c = '\n' || c = '\r' || c = '\u2028' || c = '\u2029'

/-- Whether a base atom matches one character, per ECMAScript:
a literal matches itself, `[^/]` matches any non-slash character,
`.` matches any character except a line terminator. -/
def baseMatch : RBase → Char → Bool
  | .lit c, d => c = d
  | .nonSlash, d => d ≠ '/'
  | .dot, d => !(isLineTerminator d)

/-- A lexical token of the regex fragment: a base atom or a
quantifier character. -/
inductive RTok where
  | atom (b : RBase)
  | quant (q : RQuant)
  deriving DecidableEq, Repr

/-- Fuelled tokenizer for the regex fragment emitted by
`wildcardToRegex`: `\c` is the escaped literal `c`, `[^/]` the
non-slash class, `.` the any-character atom, `? * +` are quantifier
tokens, any other character not carrying regex meaning is a literal
atom, and the remaining metacharacters (brace, alternation, bare
bracket, anchor, ...) fall outside the fragment (`none`).  Fuel
`s.length + 1` (supplied by `lexRegex`) never runs out, as every
step consumes at least one character. -/
def lexRegexF : Nat → List Char → Option (List RTok)
  | 0, _ => none
  | _ + 1, [] => some []
  | f + 1, c :: rest =>
    if c = '\\' then
      match rest with
      | [] => none
      | c2 :: r => (lexRegexF f r).map (fun ts => RTok.atom (.lit c2) :: ts)
    else if c = '[' then
      match rest with
      | '^' :: '/' :: ']' :: r => (lexRegexF f r).map (fun ts => RTok.atom .nonSlash :: ts)
      | _ => none
    else if c = '.' then (lexRegexF f rest).map (fun ts => RTok.atom .dot :: ts)
    else if c = '?' then (lexRegexF f rest).map (fun ts => RTok.quant .opt :: ts)
    else if c = '*' then (lexRegexF f rest).map (fun ts => RTok.quant .star :: ts)
    else if c = '+' then (lexRegexF f rest).map (fun ts => RTok.quant .plus :: ts)
    else if c = '{' ∨ c = '}' ∨ c = '|' ∨ c = ']' ∨ c = '(' ∨ c = ')' ∨
            c = '^' ∨ c = '$' then none
    else (lexRegexF f rest).map (fun ts => RTok.atom (.lit c) :: ts)

/-- Tokenize a regex string (with sufficient fuel). -/
def lexRegex (s : List Char) : Option (List RTok) :=
  lexRegexF (s.length + 1) s

/-- Attach each quantifier token to the atom immediately before it,
per ECMAScript grammar; a quantifier with no preceding atom is
outside the fragment (`none`). -/
def groupToks : List RTok → Option (List RAtom)
  | [] => some []
  | .quant _ :: _ => none
  | .atom b :: .quant q :: rest => (groupToks rest).map (fun as => ⟨b, q⟩ :: as)
  | .atom b :: rest => (groupToks rest).map (fun as => ⟨b, .one⟩ :: as)

/-- Parse a regex string of the fragment emitted by `wildcardToRegex`
into a list of quantified atoms: tokenize, then attach quantifiers.
Returns `none` on a regex outside the fragment;
`parse_wildcardToRegex` below proves that the translation of any
pattern free of the unescaped metacharacters `? { } |` stays inside
the fragment. -/
def parseRegex (s : List Char) : Option (List RAtom) :=
  (lexRegex s).bind groupToks

/-- The direct token reading of a wildcard pattern: `+` contributes
the non-slash class atom with a plus quantifier, `#` the
any-character atom with a star quantifier, and every other
character — the characters `wildcardToRegex` escapes included — one
literal atom. -/
def patToToks : List Char → List RTok
  | [] => []
  | c :: rest =>
    if c = '+' then .atom .nonSlash :: .quant .plus :: patToToks rest
    else if c = '#' then .atom .dot :: .quant .star :: patToToks rest
    else .atom (.lit c) :: patToToks rest

/-- The direct atom-by-atom reading of a wildcard pattern: `+` is the
non-empty slash-free segment atom `[^/]+`, `#` the any-suffix atom
`.*`, and every other character — the characters `wildcardToRegex`
escapes included — one single-character literal atom. -/
def patToAtoms : List Char → List RAtom
  | [] => []
  | c :: rest =>
    if c = '+' then ⟨.nonSlash, .plus⟩ :: patToAtoms rest
    else if c = '#' then ⟨.dot, .star⟩ :: patToAtoms rest
    else ⟨.lit c, .one⟩ :: patToAtoms rest

/-- Fuelled whole-string matcher for a list of quantified atoms,
implementing ECMAScript concatenation/quantifier semantics by
backtracking.  `matchAtoms` below supplies sufficient fuel; each
recursive call strictly decreases `as.length + t.length`, so fuel
`as.length + t.length + 1` never runs out. -/
def matchAtomsF : Nat → List RAtom → List Char → Bool
  | 0, _, _ => false
  | _ + 1, [], [] => true
  | _ + 1, [], _ :: _ => false
  | f + 1, ⟨b, .one⟩ :: as, t =>
    match t with
    | [] => false
    | c :: rest => baseMatch b c && matchAtomsF f as rest
  | f + 1, ⟨b, .opt⟩ :: as, t =>
    matchAtomsF f as t ||
      (match t with
       | [] => false
       | c :: rest => baseMatch b c && matchAtomsF f as rest)
  | f + 1, ⟨b, .star⟩ :: as, t =>
    matchAtomsF f as t ||
      (match t with
       | [] => false
       | c :: rest => baseMatch b c && matchAtomsF f (⟨b, .star⟩ :: as) rest)
  | f + 1, ⟨b, .plus⟩ :: as, t =>
    match t with
    | [] => false
    | c :: rest => baseMatch b c && matchAtomsF f (⟨b, .star⟩ :: as) rest

/-- Whole-string (anchored) regex match, as performed by
`std::regex_match` in `WildcardTopicFilter::matches`. -/
def matchAtoms (as : List RAtom) (t : List Char) : Bool :=
  matchAtomsF (as.length + t.length + 1) as t

/-- Mirror of `WildcardTopicFilter::matches` (src/topic.cpp): compile
the pattern with `wildcardToRegex` and match the whole topic string. -/
def wMatches (pattern topic : List Char) : Bool :=
  match parseRegex (wildcardToRegex pattern) with
  | some as => matchAtoms as topic
  | none => false

/-- A topic filter: the exact variant or the wildcard variant
(src/topic.cpp, `ExactTopicFilter` / `WildcardTopicFilter`). -/
inductive TopicFilter where
  | exact (topic : List Char)
  | wildcard (pattern : List Char)

/-- `matches` of the two filter variants: string equality for the
exact filter, anchored regex matching for the wildcard filter. -/
def TopicFilter.matches : TopicFilter → List Char → Bool
  | .exact t, topic => t == topic
  | .wildcard p, topic => wMatches p topic

/-- Mirror of `TopicFilterFactory::create`: a pattern containing `+`
or `#` yields the wildcard variant, otherwise the exact variant. -/
def TopicFilterFactory_create (p : List Char) : TopicFilter :=
  if p.contains '+' || p.contains '#' then .wildcard p else .exact p

/-- Message priority levels (include/pubsub/message.hpp), in
declaration order Low, Normal, High, Critical. -/
inductive Priority where
  | Low
  | Normal
  | High
  | Critical
  deriving DecidableEq, Repr

/-- Underlying enum value of a priority, per C++ declaration order. -/
def Priority.toNat : Priority → Nat
  | .Low => 0
  | .Normal => 1
  | .High => 2
  | .Critical => 3

/-- The `<=` comparison on the `Priority` enum used in
`Broker::publish` (`message->priority() <= Priority::Normal`). -/
def Priority.le (a b : Priority) : Bool :=
  a.toNat ≤ b.toNat

/-- Result of one delivery attempt
(include/pubsub/subscription.hpp, `enum class DeliveryResult`). -/
inductive DeliveryResult where
  | Success
  | Filtered
  | Rejected
  | Timeout
  | Error
  deriving DecidableEq, Repr

/-- The fields of a `Message` that the dispatch path reads: its id
(used by `acknowledge`), its topic and its priority.  Timestamp,
headers and the type-erased payload are never consulted by the
publish/deliver code under verification. -/
structure Message where
  id : String
  topic : List Char
  priority : Priority

/-- `SubscriptionOptions` (include/pubsub/subscription.hpp). -/
structure SubscriptionOptions where
  max_messages : Nat
  auto_acknowledge : Bool
  receive_existing_messages : Bool
  timeout_ms : Nat

/-- A subscription (include/pubsub/subscription.hpp).  The consumer
callback is modelled by its observable outcome: `callback m = true`
means the C++ callback returns normally on `m`, `false` means it
throws. -/
structure Subscription where
  id : String
  filter : TopicFilter
  callback : Message → Bool
  options : SubscriptionOptions
  message_count : Nat
  active : Bool

/-- Outcome of `Subscription::deliver`: the updated subscription
state, the returned `DeliveryResult`, and whether the consumer
callback was invoked (ghost observation of the control path). -/
structure DeliverOutcome where
  sub : Subscription
  result : DeliveryResult
  invoked : Bool

/-- Mirror of `Subscription::matches`: delegate to the filter. -/
def Subscription.matches (s : Subscription) (topic : List Char) : Bool :=
  s.filter.matches topic

/-- Mirror of `Subscription::acknowledge`: a no-op hook that always
returns true. -/
def Subscription.acknowledge (_s : Subscription) (_message_id : String) : Bool :=
  true

/-- Mirror of `Subscription::is_active`. -/
def Subscription.is_active (s : Subscription) : Bool :=
  s.active

/-- Mirror of `Subscription::deliver` (src/subscription.cpp): reject
when inactive; filter on topic mismatch; reject when the
`max_messages` ceiling is reached; otherwise increment
`message_count`, invoke the callback inside a try/catch (a throwing
callback yields `Error`, a normal return yields `Success` after the
unconditional no-op auto-acknowledge). -/
def Subscription.deliver (s : Subscription) (m : Message) : DeliverOutcome :=
  if !s.is_active then
    ⟨s, .Rejected, false⟩
  else if !(s.matches m.topic) then
    ⟨s, .Filtered, false⟩
  else if s.options.max_messages > 0 ∧ s.message_count ≥ s.options.max_messages then
    ⟨s, .Rejected, false⟩
  else
    let s1 : Subscription := { s with message_count := s.message_count + 1 }
    if s1.callback m then
      -- auto-acknowledge (always returns true, no state change)
      ⟨s1, .Success, true⟩
    else
      ⟨s1, .Error, true⟩

/-- Mirror of `Subscription::cancel`: store false into `active`. -/
def Subscription.cancel (s : Subscription) : Subscription :=
  { s with active := false }

/-- Deliver a list of messages to a subscription one after the other,
threading the subscription state; returns the final state and the
list of results in order. -/
def Subscription.seqDeliver : Subscription → List Message → Subscription × List DeliveryResult
  | s, [] => (s, [])
  | s, m :: ms =>
    let o := s.deliver m
    let rest := o.sub.seqDeliver ms
    (rest.1, o.result :: rest.2)

/-- `BrokerConfig` (include/pubsub/broker.hpp). -/
structure BrokerConfig where
  thread_count : Nat
  max_queue_size : Nat
  retain_messages : Bool
  max_retained_messages : Nat
  strict_topic_matching : Bool

/-- The broker state read and written by `publish` and
`process_message` (src/broker.cpp): the running flag, the
configuration, the FIFO message queue (front of the list = front of
the queue), the two cumulative counters, and the subscription
registry in its iteration order. -/
structure Broker where
  running : Bool
  config : BrokerConfig
  queue : List Message
  published_messages : Nat
  delivered_messages : Nat
  subscriptions : List Subscription

/-- Mirror of `Broker::publish` (src/broker.cpp): fail fast when not
running; the comparison of `message->topic()` with the `topic_str`
argument has an empty branch body and no effect; increment
`published_messages` unconditionally; then, under a bounded queue
that is full, return false on both priority branches (high priority
messages are dropped exactly like normal/low ones); otherwise append
the message to the queue and return true. -/
def Broker.publish (b : Broker) (_topic_str : List Char) (m : Message) : Broker × Bool :=
  if !b.running then
    (b, false)
  else
    let b1 : Broker := { b with published_messages := b.published_messages + 1 }
    if b.config.max_queue_size > 0 ∧ b1.queue.length ≥ b.config.max_queue_size then
      if m.priority.le .Normal then
        -- drop normal or low priority messages when the queue is full
        (b1, false)
      else
        -- high priority messages are likewise dropped
        (b1, false)
    else
      ({ b1 with queue := b1.queue ++ [m] }, true)

/-- Sequentially publish a list of messages, threading the broker
state; returns the final state and the list of publish results. -/
def Broker.seqPublish : Broker → List Char → List Message → Broker × List Bool
  | b, _, [] => (b, [])
  | b, t, m :: ms =>
    let p := b.publish t m
    let rest := p.1.seqPublish t ms
    (rest.1, p.2 :: rest.2)

/-- Mirror of `Broker::process_message` (src/broker.cpp): snapshot
the subscriptions whose filter matches the message topic, call
`deliver` on each sequentially, and add the number of `Success`
results to `delivered_messages`.  Because each `deliver` reads and
writes only its own subscription, the sequential loop is equivalent
to updating each matching registry entry in place; the returned log
records, in registry order, the id of every subscription `deliver`
was invoked on together with the result it returned. -/
def Broker.process_message (b : Broker) (m : Message) : Broker × List (String × DeliveryResult) :=
  let matching := b.subscriptions.filter (fun s => s.matches m.topic)
  let log := matching.map (fun s => (s.id, (s.deliver m).result))
  let subs1 := b.subscriptions.map
    (fun s => if s.matches m.topic then (s.deliver m).sub else s)
  let succ := (matching.filter (fun s => (s.deliver m).result == DeliveryResult.Success)).length
  ({ b with
      subscriptions := subs1,
      delivered_messages := b.delivered_messages + succ }, log)

/-! Concrete fixtures used by witnesses and counterexamples. -/

/-- A configuration with two worker threads' worth of defaults and a
queue bound of 2. -/
def cfgK2 : BrokerConfig := ⟨1, 2, true, 100, false⟩

/-- A freshly initialized running broker with queue bound 2. -/
def brokerK2 : Broker := ⟨true, cfgK2, [], 0, 0, []⟩

/-- A low-priority message on topic `t`. -/
def msgT1 : Message := ⟨"m1", "t".toList, Priority.Low⟩

/-- A normal-priority message on topic `t`. -/
def msgT2 : Message := ⟨"m2", "t".toList, Priority.Normal⟩

/-- A critical-priority message on topic `t`. -/
def msgT3 : Message := ⟨"m3", "t".toList, Priority.Critical⟩

/-- A message on topic `u`, matched by no fixture subscription. -/
def msgU : Message := ⟨"m4", "u".toList, Priority.Normal⟩

/-- Options with `max_messages = 3` and the header defaults. -/
def opts3 : SubscriptionOptions := ⟨3, true, false, 0⟩

/-- Options with the header defaults (`max_messages = 0`). -/
def opts0 : SubscriptionOptions := ⟨0, true, false, 0⟩

/-- An active subscription on topic `t` capped at 3 messages whose
callback returns normally. -/
def subCap3 : Subscription :=
  ⟨"s3", TopicFilterFactory_create "t".toList, fun _ => true, opts3, 0, true⟩

/-- An active subscription on topic `t` that already consumed its
3-message cap. -/
def subCapFull : Subscription :=
  ⟨"sf", TopicFilterFactory_create "t".toList, fun _ => true, opts3, 3, true⟩

/-- An active unlimited subscription on topic `t` whose callback
throws on every message. -/
def subThrow : Subscription :=
  ⟨"se", TopicFilterFactory_create "t".toList, fun _ => false, opts0, 0, true⟩

/-- An active unlimited subscription on topic `t` whose callback
returns normally. -/
def subOk : Subscription :=
  ⟨"so", TopicFilterFactory_create "t".toList, fun _ => true, opts0, 0, true⟩

/-- A subscription on topic `t` that has been cancelled. -/
def subOff : Subscription :=
  ⟨"sx", TopicFilterFactory_create "t".toList, fun _ => true, opts0, 5, false⟩

/-- A running broker whose registry holds `subThrow` then `subOk`. -/
def brokerTwo : Broker := ⟨true, cfgK2, [], 0, 0, [subThrow, subOk]⟩

/-! General lemmas about the fuelled regex matcher. -/

/-- Any two sufficient fuels give the matcher the same verdict. -/
theorem matchAtomsF_congr (f : Nat) : ∀ (g : Nat) (as : List RAtom) (t : List Char),
    as.length + t.length < f → as.length + t.length < g →
    matchAtomsF f as t = matchAtomsF g as t := by
  induction f with
  | zero => intro g as t hf _; omega
  | succ f ih =>
    intro g as t hf hg
    cases g with
    | zero => omega
    | succ g =>
      cases as with
      | nil => cases t <;> simp [matchAtomsF]
      | cons a as =>
        obtain ⟨b, q⟩ := a
        cases q with
        | one =>
          cases t with
          | nil => simp [matchAtomsF]
          | cons c rest =>
            simp only [matchAtomsF]
            rw [ih g as rest (by simp only [List.length_cons] at hf hg ⊢; omega)
              (by simp only [List.length_cons] at hf hg ⊢; omega)]
        | opt =>
          cases t with
          | nil =>
            simp only [matchAtomsF]
            rw [ih g as [] (by simp only [List.length_cons] at hf hg ⊢; omega)
              (by simp only [List.length_cons] at hf hg ⊢; omega)]
          | cons c rest =>
            simp only [matchAtomsF]
            rw [ih g as (c :: rest) (by simp only [List.length_cons] at hf hg ⊢; omega)
              (by simp only [List.length_cons] at hf hg ⊢; omega),
              ih g as rest (by simp only [List.length_cons] at hf hg ⊢; omega)
              (by simp only [List.length_cons] at hf hg ⊢; omega)]
        | star =>
          cases t with
          | nil =>
            simp only [matchAtomsF]
            rw [ih g as [] (by simp only [List.length_cons] at hf hg ⊢; omega)
              (by simp only [List.length_cons] at hf hg ⊢; omega)]
          | cons c rest =>
            simp only [matchAtomsF]
            rw [ih g as (c :: rest) (by simp only [List.length_cons] at hf hg ⊢; omega)
              (by simp only [List.length_cons] at hf hg ⊢; omega),
              ih g (⟨b, .star⟩ :: as) rest (by simp only [List.length_cons] at hf hg ⊢; omega)
              (by simp only [List.length_cons] at hf hg ⊢; omega)]
        | plus =>
          cases t with
          | nil => simp [matchAtomsF]
          | cons c rest =>
            simp only [matchAtomsF]
            rw [ih g (⟨b, .star⟩ :: as) rest (by simp only [List.length_cons] at hf hg ⊢; omega)
              (by simp only [List.length_cons] at hf hg ⊢; omega)]

/-- A sufficient fuel computes `matchAtoms`. -/
theorem matchAtomsF_eq (f : Nat) (as : List RAtom) (t : List Char)
    (h : as.length + t.length < f) :
    matchAtomsF f as t = matchAtoms as t :=
  matchAtomsF_congr f (as.length + t.length + 1) as t h (by omega)

/-- The empty atom list matches only the empty string. -/
theorem matchAtoms_nil_iff (t : List Char) : matchAtoms [] t = true ↔ t = [] := by
  cases t <;> simp [matchAtoms, matchAtomsF]

/-- One-step unfolding of the matcher for an unquantified atom. -/
theorem matchAtomsF_one_step (f : Nat) (b : RBase) (as : List RAtom) (c : Char)
    (t : List Char) :
    matchAtomsF (f + 1) (⟨b, .one⟩ :: as) (c :: t) = (baseMatch b c && matchAtomsF f as t) :=
  rfl

/-- One-step unfolding of the matcher for a starred atom. -/
theorem matchAtomsF_star_step (f : Nat) (b : RBase) (as : List RAtom) (c : Char)
    (t : List Char) :
    matchAtomsF (f + 1) (⟨b, .star⟩ :: as) (c :: t) =
      (matchAtomsF f as (c :: t) || (baseMatch b c && matchAtomsF f (⟨b, .star⟩ :: as) t)) :=
  rfl

/-- One-step unfolding of the matcher for a starred atom on the empty
string. -/
theorem matchAtomsF_star_nil_step (f : Nat) (b : RBase) (as : List RAtom) :
    matchAtomsF (f + 1) (⟨b, .star⟩ :: as) [] = (matchAtomsF f as [] || false) :=
  rfl

/-- One-step unfolding of the matcher for a plus-quantified atom. -/
theorem matchAtomsF_plus_step (f : Nat) (b : RBase) (as : List RAtom) (c : Char)
    (t : List Char) :
    matchAtomsF (f + 1) (⟨b, .plus⟩ :: as) (c :: t) =
      (baseMatch b c && matchAtomsF f (⟨b, .star⟩ :: as) t) :=
  rfl

/-- Unfolding: an unquantified atom consumes exactly one character. -/
theorem matchAtoms_one (b : RBase) (as : List RAtom) (c : Char) (t : List Char) :
    matchAtoms (⟨b, .one⟩ :: as) (c :: t) = (baseMatch b c && matchAtoms as t) := by
  have h : (⟨b, .one⟩ :: as : List RAtom).length + (c :: t).length + 1 =
      (as.length + t.length + 2) + 1 := by
    simp only [List.length_cons]; omega
  show matchAtomsF _ _ _ = _
  rw [h, matchAtomsF_one_step, matchAtomsF_eq _ as t (by omega)]

/-- An unquantified atom never matches the empty string. -/
theorem matchAtoms_one_nil (b : RBase) (as : List RAtom) :
    matchAtoms (⟨b, .one⟩ :: as) [] = false := rfl

/-- Unfolding: a starred atom either yields to the remaining atoms or
consumes one matching character and stays. -/
theorem matchAtoms_star_cons (b : RBase) (as : List RAtom) (c : Char) (t : List Char) :
    matchAtoms (⟨b, .star⟩ :: as) (c :: t) =
      (matchAtoms as (c :: t) || (baseMatch b c && matchAtoms (⟨b, .star⟩ :: as) t)) := by
  have h : (⟨b, .star⟩ :: as : List RAtom).length + (c :: t).length + 1 =
      (as.length + t.length + 2) + 1 := by
    simp only [List.length_cons]; omega
  show matchAtomsF _ _ _ = _
  rw [h, matchAtomsF_star_step,
    matchAtomsF_eq _ as (c :: t) (by simp only [List.length_cons]; omega),
    matchAtomsF_eq _ (⟨b, .star⟩ :: as) t (by simp only [List.length_cons]; omega)]

/-- Unfolding: a starred atom on the empty string yields to the
remaining atoms. -/
theorem matchAtoms_star_nil (b : RBase) (as : List RAtom) :
    matchAtoms (⟨b, .star⟩ :: as) [] = matchAtoms as [] := by
  have h : (⟨b, .star⟩ :: as : List RAtom).length + ([] : List Char).length + 1 =
      (as.length + 1) + 1 := by
    simp only [List.length_cons, List.length_nil]
  show matchAtomsF _ _ _ = _
  rw [h, matchAtomsF_star_nil_step, matchAtomsF_eq _ as [] (by simp only [List.length_nil]; omega)]
  simp

/-- Unfolding: a plus-quantified atom consumes one matching character
and becomes starred. -/
theorem matchAtoms_plus_cons (b : RBase) (as : List RAtom) (c : Char) (t : List Char) :
    matchAtoms (⟨b, .plus⟩ :: as) (c :: t) =
      (baseMatch b c && matchAtoms (⟨b, .star⟩ :: as) t) := by
  have h : (⟨b, .plus⟩ :: as : List RAtom).length + (c :: t).length + 1 =
      (as.length + t.length + 2) + 1 := by
    simp only [List.length_cons]; omega
  show matchAtomsF _ _ _ = _
  rw [h, matchAtomsF_plus_step,
    matchAtomsF_eq _ (⟨b, .star⟩ :: as) t (by simp only [List.length_cons]; omega)]

/-- A plus-quantified atom never matches the empty string. -/
theorem matchAtoms_plus_nil (b : RBase) (as : List RAtom) :
    matchAtoms (⟨b, .plus⟩ :: as) [] = false := rfl

/-- Characterization of a starred atom: some prefix of characters
accepted by the base, followed by a suffix matching the rest. -/
theorem matchAtoms_star_iff (b : RBase) (as : List RAtom) (t : List Char) :
    matchAtoms (⟨b, .star⟩ :: as) t = true ↔
      ∃ s r, t = s ++ r ∧ (∀ c ∈ s, baseMatch b c = true) ∧ matchAtoms as r = true := by
  induction t with
  | nil =>
    rw [matchAtoms_star_nil]
    constructor
    · intro h
      exact ⟨[], [], rfl, by simp, h⟩
    · rintro ⟨s, r, hsr, _, hr⟩
      have hs := List.append_eq_nil.mp hsr.symm
      rw [hs.2] at hr
      exact hr
  | cons c t ih =>
    rw [matchAtoms_star_cons]
    simp only [Bool.or_eq_true, Bool.and_eq_true]
    constructor
    · rintro (h | ⟨hb, h⟩)
      · exact ⟨[], c :: t, rfl, by simp, h⟩
      · obtain ⟨s, r, hsr, hall, hr⟩ := ih.mp h
        exact ⟨c :: s, r, by rw [hsr]; rfl, by
          intro d hd
          rcases List.mem_cons.mp hd with h1 | h2
          · rw [h1]; exact hb
          · exact hall d h2, hr⟩
    · rintro ⟨s, r, hsr, hall, hr⟩
      cases s with
      | nil =>
        left
        simpa using hsr ▸ hr
      | cons d s =>
        right
        have hcd : c = d := by
          have := hsr
          simp only [List.cons_append, List.cons.injEq] at this
          exact this.1
        refine ⟨by rw [hcd]; exact hall d (List.mem_cons_self d s), ?_⟩
        refine ih.mpr ⟨s, r, ?_, fun e he => hall e (List.mem_cons_of_mem d he), hr⟩
        have := hsr
        simp only [List.cons_append, List.cons.injEq] at this
        exact this.2

/-- Characterization of a plus-quantified atom: a non-empty run of
characters accepted by the base, then a suffix matching the rest. -/
theorem matchAtoms_plus_iff (b : RBase) (as : List RAtom) (t : List Char) :
    matchAtoms (⟨b, .plus⟩ :: as) t = true ↔
      ∃ s r, t = s ++ r ∧ s ≠ [] ∧ (∀ c ∈ s, baseMatch b c = true) ∧
        matchAtoms as r = true := by
  cases t with
  | nil =>
    rw [matchAtoms_plus_nil]
    constructor
    · intro h; exact absurd h (by simp)
    · rintro ⟨s, r, hsr, hne, _, _⟩
      exact absurd (List.append_eq_nil.mp hsr.symm).1 hne
  | cons c t =>
    rw [matchAtoms_plus_cons]
    simp only [Bool.and_eq_true]
    constructor
    · rintro ⟨hb, h⟩
      obtain ⟨s, r, hsr, hall, hr⟩ := (matchAtoms_star_iff b as t).mp h
      exact ⟨c :: s, r, by rw [hsr]; rfl, by simp, by
        intro d hd
        rcases List.mem_cons.mp hd with h1 | h2
        · rw [h1]; exact hb
        · exact hall d h2, hr⟩
    · rintro ⟨s, r, hsr, hne, hall, hr⟩
      cases s with
      | nil => exact absurd rfl hne
      | cons d s =>
        have hcd : c = d ∧ t = s ++ r := by
          have := hsr
          simp only [List.cons_append, List.cons.injEq] at this
          exact this
        refine ⟨by rw [hcd.1]; exact hall d (List.mem_cons_self d s), ?_⟩
        exact (matchAtoms_star_iff b as t).mpr
          ⟨s, r, hcd.2, fun e he => hall e (List.mem_cons_of_mem d he), hr⟩

/-- A literal atom consumes exactly its character. -/
theorem matchAtoms_lit (c : Char) (as : List RAtom) (t : List Char) :
    matchAtoms (⟨.lit c, .one⟩ :: as) t = true ↔
      ∃ r, t = c :: r ∧ matchAtoms as r = true := by
  cases t with
  | nil =>
    rw [matchAtoms_one_nil]
    simp
  | cons d r =>
    rw [matchAtoms_one]
    simp only [baseMatch, Bool.and_eq_true, decide_eq_true_eq]
    constructor
    · rintro ⟨h1, h2⟩
      exact ⟨r, by rw [h1], h2⟩
    · rintro ⟨r', hr', h2⟩
      injection hr' with h1 h3
      exact ⟨h1.symm, by rw [h3]; exact h2⟩

/-- The class atom accepts exactly the non-slash characters. -/
theorem baseMatch_nonSlash (c : Char) : baseMatch .nonSlash c = true ↔ c ≠ '/' := by
  simp [baseMatch]

/-- Tokenizing the translation of a pattern free of the unescaped
metacharacters `? { } |` yields exactly its direct token reading,
for every sufficient fuel. -/
theorem lexRegexF_wildcard (p : List Char)
    (h : ∀ c ∈ p, c ≠ '?' ∧ c ≠ '{' ∧ c ≠ '}' ∧ c ≠ '|') :
    ∀ f, (wildcardToRegex p).length < f →
      lexRegexF f (wildcardToRegex p) = some (patToToks p) := by
  induction p with
  | nil =>
    intro f hf
    cases f with
    | zero => omega
    | succ f1 => rfl
  | cons c rest ih =>
    intro f hf
    have hc := h c (List.mem_cons_self _ _)
    have hrest : ∀ c' ∈ rest, c' ≠ '?' ∧ c' ≠ '{' ∧ c' ≠ '}' ∧ c' ≠ '|' :=
      fun c' hc' => h c' (List.mem_cons_of_mem _ hc')
    have ihr := ih hrest
    by_cases h1 : c = '+'
    · subst h1
      have hW : wildcardToRegex ('+' :: rest) =
          '[' :: '^' :: '/' :: ']' :: '+' :: wildcardToRegex rest := by
        simp [wildcardToRegex]
      rw [hW]
      rw [hW] at hf
      simp only [List.length_cons] at hf
      cases f with
      | zero => omega
      | succ f1 =>
        cases f1 with
        | zero => omega
        | succ f2 =>
          simp only [lexRegexF]
          rw [ihr f2 (by omega)]
          simp [patToToks]
    · by_cases h2 : c = '#'
      · subst h2
        have hW : wildcardToRegex ('#' :: rest) =
            '.' :: '*' :: wildcardToRegex rest := by
          simp [wildcardToRegex]
        rw [hW]
        rw [hW] at hf
        simp only [List.length_cons] at hf
        cases f with
        | zero => omega
        | succ f1 =>
          cases f1 with
          | zero => omega
          | succ f2 =>
            simp only [lexRegexF]
            rw [ihr f2 (by omega)]
            simp [patToToks, h1]
      · by_cases h3 : c = '.' ∨ c = '*' ∨ c = '[' ∨ c = ']' ∨ c = '(' ∨ c = ')' ∨
            c = '\\' ∨ c = '^' ∨ c = '$'
        · have hW : wildcardToRegex (c :: rest) =
              '\\' :: c :: wildcardToRegex rest := by
            simp [wildcardToRegex, h1, h2, h3]
          rw [hW]
          rw [hW] at hf
          simp only [List.length_cons] at hf
          cases f with
          | zero => omega
          | succ f1 =>
            simp only [lexRegexF]
            rw [ihr f1 (by omega)]
            simp [patToToks, h1, h2]
        · push_neg at h3
          obtain ⟨e1, e2, e3, e4, e5, e6, e7, e8, e9⟩ := h3
          have hW : wildcardToRegex (c :: rest) = c :: wildcardToRegex rest := by
            simp [wildcardToRegex, h1, h2, e1, e2, e3, e4, e5, e6, e7, e8, e9]
          rw [hW]
          rw [hW] at hf
          simp only [List.length_cons] at hf
          cases f with
          | zero => omega
          | succ f1 =>
            simp only [lexRegexF, e7, e3, e1, hc.1, e2, h1, hc.2.1, hc.2.2.1,
              hc.2.2.2, e4, e5, e6, e8, e9]
            rw [ihr f1 (by omega)]
            simp [patToToks, h1, h2]

/-- The token reading of a pattern never begins with a quantifier
token. -/
theorem patToToks_head (p : List Char) :
    patToToks p = [] ∨ ∃ b ts, patToToks p = RTok.atom b :: ts := by
  cases p with
  | nil => exact Or.inl rfl
  | cons c rest =>
    right
    simp only [patToToks]
    split_ifs <;> exact ⟨_, _, rfl⟩

/-- Attaching quantifiers to the token reading of a pattern yields
exactly its atom reading. -/
theorem group_patToToks (p : List Char) :
    groupToks (patToToks p) = some (patToAtoms p) := by
  induction p with
  | nil => rfl
  | cons c rest ih =>
    by_cases h1 : c = '+'
    · simp only [patToToks, patToAtoms, if_pos h1]
      rw [show groupToks (.atom .nonSlash :: .quant .plus :: patToToks rest) =
          (groupToks (patToToks rest)).map (fun as => ⟨.nonSlash, .plus⟩ :: as) from rfl]
      rw [ih]
      rfl
    · by_cases h2 : c = '#'
      · simp only [patToToks, patToAtoms, if_neg h1, if_pos h2]
        rw [show groupToks (.atom .dot :: .quant .star :: patToToks rest) =
            (groupToks (patToToks rest)).map (fun as => ⟨.dot, .star⟩ :: as) from rfl]
        rw [ih]
        rfl
      · simp only [patToToks, patToAtoms, if_neg h1, if_neg h2]
        rcases patToToks_head rest with hnil | ⟨b, ts, hcons⟩
        · rw [hnil]
          rw [hnil] at ih
          have hat : patToAtoms rest = [] := by
            have h' : (some [] : Option (List RAtom)) = some (patToAtoms rest) := ih
            simpa using h'.symm
          rw [hat]
          rfl
        · rw [hcons]
          rw [show groupToks (.atom (.lit c) :: .atom b :: ts) =
              (groupToks (.atom b :: ts)).map (fun as => ⟨.lit c, .one⟩ :: as) from rfl]
          rw [← hcons, ih]
          rfl

/-- The translation of a pattern free of the unescaped
metacharacters `? { } |` parses back into exactly its direct
atom-by-atom reading — in particular it always stays inside the
regex fragment the model covers. -/
theorem parse_wildcardToRegex (p : List Char)
    (h : ∀ c ∈ p, c ≠ '?' ∧ c ≠ '{' ∧ c ≠ '}' ∧ c ≠ '|') :
    parseRegex (wildcardToRegex p) = some (patToAtoms p) := by
  unfold parseRegex lexRegex
  rw [lexRegexF_wildcard p h _ (by omega)]
  simpa using group_patToToks p

/-- A run of literal atoms consumes exactly the corresponding
characters. -/
theorem matchAtoms_litRun (pre : List Char) (as : List RAtom) (t : List Char) :
    matchAtoms (pre.map (fun c => ⟨.lit c, .one⟩) ++ as) t = true ↔
      ∃ r, t = pre ++ r ∧ matchAtoms as r = true := by
  induction pre generalizing t with
  | nil => simp
  | cons c pre ih =>
    simp only [List.map_cons, List.cons_append]
    constructor
    · intro h0
      obtain ⟨r1, ht1, h1⟩ := (matchAtoms_lit c _ _).mp h0
      obtain ⟨r, ht2, h2⟩ := (ih r1).mp h1
      exact ⟨r, by rw [ht1, ht2], h2⟩
    · rintro ⟨r, rfl, h2⟩
      exact (matchAtoms_lit c _ _).mpr ⟨pre ++ r, rfl, (ih _).mpr ⟨r, rfl, h2⟩⟩

/-- The atom reading of `<literal>/+` is a run of literal atoms for
the segment, a literal slash, and the segment atom. -/
theorem patToAtoms_litSeg (pre : List Char) (hpre : ∀ c ∈ pre, c ≠ '+' ∧ c ≠ '#') :
    patToAtoms (pre ++ '/' :: ['+']) =
      pre.map (fun c => ⟨.lit c, .one⟩) ++ [⟨.lit '/', .one⟩, ⟨.nonSlash, .plus⟩] := by
  induction pre with
  | nil => rfl
  | cons c pre ih =>
    have hc := hpre c (List.mem_cons_self _ _)
    simp only [List.cons_append, patToAtoms, if_neg hc.1, if_neg hc.2, List.map_cons,
      List.append_eq]
    rw [ih (fun c' h' => hpre c' (List.mem_cons_of_mem _ h'))]

/-- For every literal segment free of wildcards and of the unescaped
metacharacters `? { } |`, the pattern `<literal>/+` matches exactly
the topics made of that literal segment — regex metacharacters taken
as themselves — a slash, and one non-empty slash-free segment. -/
theorem wMatches_litSegment (pre : List Char)
    (h : ∀ c ∈ pre, c ≠ '+' ∧ c ≠ '#' ∧ c ≠ '?' ∧ c ≠ '{' ∧ c ≠ '}' ∧ c ≠ '|')
    (t : List Char) :
    wMatches (pre ++ '/' :: ['+']) t = true ↔
      ∃ seg : List Char, seg ≠ [] ∧ (∀ c ∈ seg, c ≠ '/') ∧ t = pre ++ '/' :: seg := by
  have hall : ∀ c ∈ pre ++ '/' :: ['+'], c ≠ '?' ∧ c ≠ '{' ∧ c ≠ '}' ∧ c ≠ '|' := by
    intro c hc
    rcases List.mem_append.mp hc with hmem | hmem
    · exact (h c hmem).2.2
    · simp only [List.mem_cons, List.mem_singleton] at hmem
      rcases hmem with rfl | rfl | hmem
      · decide
      · decide
      · simp at hmem
  have hp := parse_wildcardToRegex _ hall
  simp only [wMatches, hp]
  rw [patToAtoms_litSeg pre (fun c hc => ⟨(h c hc).1, (h c hc).2.1⟩)]
  constructor
  · intro hm0
    obtain ⟨r, ht1, hm1⟩ := (matchAtoms_litRun pre _ _).mp hm0
    obtain ⟨r2, ht2, hm2⟩ := (matchAtoms_lit '/' _ _).mp hm1
    obtain ⟨s, r3, ht3, hne, hs, hm3⟩ := (matchAtoms_plus_iff _ _ _).mp hm2
    have h3 : r3 = [] := (matchAtoms_nil_iff r3).mp hm3
    refine ⟨s, hne, fun c hc => (baseMatch_nonSlash c).mp (hs c hc), ?_⟩
    rw [ht1, ht2, ht3, h3]
    simp
  · rintro ⟨seg, hne, hs, rfl⟩
    apply (matchAtoms_litRun pre _ _).mpr
    refine ⟨'/' :: seg, rfl, ?_⟩
    apply (matchAtoms_lit '/' _ _).mpr
    refine ⟨seg, rfl, ?_⟩
    apply (matchAtoms_plus_iff _ _ _).mpr
    exact ⟨seg, [], by simp, hne,
      fun c hc => (baseMatch_nonSlash c).mpr (hs c hc), rfl⟩

/-! Claim theorems. -/

/-- Claim C7: the `+` wildcard matches exactly one non-empty,
slash-free segment.  The pattern `a/+/c` matches exactly the topics
of the form `a/<seg>/c` with `<seg>` non-empty and slash-free; in
particular it matches `a/b/c` and rejects `a/b/d/c`, `a//c` and
`a/c`, and `sensors/+/temp` matches `sensors/1/temp` but not
`sensors/1/2/temp` or `sensors//temp`. -/
theorem C7_plus_single_segment :
    (∀ t : List Char, wMatches "a/+/c".toList t = true ↔
        ∃ seg : List Char, seg ≠ [] ∧ (∀ c ∈ seg, c ≠ '/') ∧
          t = 'a' :: '/' :: (seg ++ '/' :: ['c']))
  ∧ wMatches "a/+/c".toList "a/b/c".toList = true
  ∧ wMatches "a/+/c".toList "a/b/d/c".toList = false
  ∧ wMatches "a/+/c".toList "a//c".toList = false
  ∧ wMatches "a/+/c".toList "a/c".toList = false
  ∧ wMatches "sensors/+/temp".toList "sensors/1/temp".toList = true
  ∧ wMatches "sensors/+/temp".toList "sensors/1/2/temp".toList = false
  ∧ wMatches "sensors/+/temp".toList "sensors//temp".toList = false := by
  refine ⟨fun t => ?_, by decide, by decide, by decide, by decide, by decide,
    by decide, by decide⟩
  have hw : wMatches "a/+/c".toList t =
      matchAtoms [⟨.lit 'a', .one⟩, ⟨.lit '/', .one⟩, ⟨.nonSlash, .plus⟩,
        ⟨.lit '/', .one⟩, ⟨.lit 'c', .one⟩] t := rfl
  rw [hw]
  constructor
  · intro h
    obtain ⟨r1, ht, h⟩ := (matchAtoms_lit 'a' _ t).mp h
    obtain ⟨r2, hr1, h⟩ := (matchAtoms_lit '/' _ r1).mp h
    obtain ⟨s, r3, hr2, hne, hall, h⟩ := (matchAtoms_plus_iff _ _ r2).mp h
    obtain ⟨r4, hr3, h⟩ := (matchAtoms_lit '/' _ r3).mp h
    obtain ⟨r5, hr4, h⟩ := (matchAtoms_lit 'c' _ r4).mp h
    have hr5 : r5 = [] := (matchAtoms_nil_iff r5).mp h
    refine ⟨s, hne, fun c hc => (baseMatch_nonSlash c).mp (hall c hc), ?_⟩
    rw [ht, hr1, hr2, hr3, hr4, hr5]
  · rintro ⟨seg, hne, hall, rfl⟩
    apply (matchAtoms_lit 'a' _ _).mpr
    refine ⟨_, rfl, ?_⟩
    apply (matchAtoms_lit '/' _ _).mpr
    refine ⟨_, rfl, ?_⟩
    apply (matchAtoms_plus_iff _ _ _).mpr
    refine ⟨seg, '/' :: ['c'], rfl, hne,
      fun c hc => (baseMatch_nonSlash c).mpr (hall c hc), ?_⟩
    rfl

/-- Counterexample to claim C8: the pattern `a/#` compiles to the
regex `a/.*`, which requires the literal `a/`, so the bare prefix
topic `a` does not match, contrary to the claim. -/
theorem C8_counterexample : wMatches "a/#".toList "a".toList = false := by decide

/-- Claim C8 (amended): `a/#` matches `a/b`, `a/b/c` and the bare
`a/`, does not match the bare prefix `a` and does not match `b/a`;
the pattern `#` alone matches every topic that contains no
line-terminator character (the compiled regex is `.*`, whose `.`
excludes line terminators). -/
theorem C8_hash_matching :
    wMatches "a/#".toList "a/b".toList = true
  ∧ wMatches "a/#".toList "a/b/c".toList = true
  ∧ wMatches "a/#".toList "a/".toList = true
  ∧ wMatches "a/#".toList "a".toList = false
  ∧ wMatches "a/#".toList "b/a".toList = false
  ∧ (∀ t : List Char, (∀ c ∈ t, isLineTerminator c = false) →
      wMatches "#".toList t = true) := by
  refine ⟨by decide, by decide, by decide, by decide, by decide, fun t h => ?_⟩
  show matchAtoms [⟨.dot, .star⟩] t = true
  apply (matchAtoms_star_iff _ _ _).mpr
  exact ⟨t, [], by simp, fun c hc => by simp [baseMatch, h c hc], rfl⟩

/-- Witness for C8: instantiating the universally quantified part at
the concrete topic `x/y`. -/
theorem C8_witness :
    (∀ c ∈ "x/y".toList, isLineTerminator c = false)
  ∧ wMatches "#".toList "x/y".toList = true :=
  ⟨by decide, C8_hash_matching.2.2.2.2.2 "x/y".toList (by decide)⟩

/-- Counterexample to claim C9: `wildcardToRegex` escapes only
`. * [ ] ( ) \ ^ $`, so the regex metacharacter `?` in the literal
segment `a?b` of pattern `a?b/+` is NOT matched literally: the topic
`a?b/x`, which the claim says matches, does not, while `b/x`, which
the claim excludes, does (the unescaped `?` makes the preceding `a`
optional). -/
theorem C9_counterexample :
    wMatches "a?b/+".toList "a?b/x".toList = false
  ∧ wMatches "a?b/+".toList "b/x".toList = true := by decide

/-- Claim C9 (amended): for every pattern free of the characters
`? { } |` — the regex metacharacters `wildcardToRegex` leaves
unescaped — the compiled matcher equals the direct atom-by-atom
reading of the pattern, in which every literal-segment character,
the escaped metacharacters `. * [ ] ( ) \ ^ $` included, is one
single-character literal atom; consequently every pattern
`<literal>/+` over such characters matches, anchored over the whole
topic string, exactly the topics made of that literal segment, a
slash, and one non-empty slash-free segment.  The unescaped `?`
keeps its regex meaning: `a?b/+` matches `ab/x` and `b/x` but not
`a?b/x`. -/
theorem C9_escaping_and_anchoring :
    (∀ p : List Char, (∀ c ∈ p, c ≠ '?' ∧ c ≠ '{' ∧ c ≠ '}' ∧ c ≠ '|') →
        ∀ t : List Char, wMatches p t = matchAtoms (patToAtoms p) t)
  ∧ (∀ pre : List Char,
        (∀ c ∈ pre, c ≠ '+' ∧ c ≠ '#' ∧ c ≠ '?' ∧ c ≠ '{' ∧ c ≠ '}' ∧ c ≠ '|') →
        ∀ t : List Char,
          (wMatches (pre ++ '/' :: ['+']) t = true ↔
            ∃ seg : List Char, seg ≠ [] ∧ (∀ c ∈ seg, c ≠ '/') ∧
              t = pre ++ '/' :: seg))
  ∧ wMatches "a?b/+".toList "ab/x".toList = true
  ∧ wMatches "a?b/+".toList "b/x".toList = true
  ∧ wMatches "a?b/+".toList "a?b/x".toList = false := by
  refine ⟨?_, wMatches_litSegment, by decide, by decide, by decide⟩
  intro p hp t
  simp only [wMatches, parse_wildcardToRegex p hp]

/-- Witness for C9: both universal parts instantiated at the
pattern `a.b/+`, whose literal segment contains the escaped
metacharacter `.`, and the topic `a.b/x`. -/
theorem C9_witness :
    wMatches "a.b/+".toList "a.b/x".toList =
      matchAtoms (patToAtoms "a.b/+".toList) "a.b/x".toList
  ∧ (wMatches ("a.b".toList ++ '/' :: ['+']) "a.b/x".toList = true ↔
      ∃ seg : List Char, seg ≠ [] ∧ (∀ c ∈ seg, c ≠ '/') ∧
        "a.b/x".toList = "a.b".toList ++ '/' :: seg) :=
  ⟨C9_escaping_and_anchoring.1 "a.b/+".toList (by decide) "a.b/x".toList,
   C9_escaping_and_anchoring.2.1 "a.b".toList (by decide) "a.b/x".toList⟩

/-- Claim C4: on an active subscription, `deliver` returns `Filtered`
without invoking the callback and without changing any state when the
topic does not match the filter; when the topic matches but
`max_messages > 0` and `message_count` has reached it, `deliver`
returns `Rejected`, again without invoking the callback; and, with
`max_messages = 3`, four successive matching deliveries yield
Success, Success, Success, Rejected with `message_count` capped
at 3. -/
theorem C4_deliver_filtered_and_capped (s : Subscription) (m : Message) :
    (s.active = true → s.matches m.topic = false → s.deliver m = ⟨s, .Filtered, false⟩)
  ∧ (s.active = true → s.matches m.topic = true → 0 < s.options.max_messages →
      s.options.max_messages ≤ s.message_count → s.deliver m = ⟨s, .Rejected, false⟩)
  ∧ (subCap3.seqDeliver [msgT1, msgT2, msgT3, msgT1]).2
      = [.Success, .Success, .Success, .Rejected]
  ∧ (subCap3.seqDeliver [msgT1, msgT2, msgT3, msgT1]).1.message_count = 3 := by
  refine ⟨?_, ?_, by decide, by decide⟩
  · intro hact hnm
    simp [Subscription.deliver, Subscription.is_active, hact, hnm]
  · intro hact hm hpos hle
    simp [Subscription.deliver, Subscription.is_active, hact, hm, hpos, hle]

/-- Witness for C4: a non-matching delivery to `subCap3` is
`Filtered` and a delivery to the cap-exhausted `subCapFull` is
`Rejected`, each leaving the subscription unchanged with the callback
not invoked. -/
theorem C4_witness :
    subCap3.deliver msgU = ⟨subCap3, .Filtered, false⟩
  ∧ subCapFull.deliver msgT1 = ⟨subCapFull, .Rejected, false⟩ :=
  ⟨(C4_deliver_filtered_and_capped subCap3 msgU).1 rfl (by decide),
   (C4_deliver_filtered_and_capped subCapFull msgT1).2.1 rfl (by decide)
     (by decide) (by decide)⟩

/-- Counterexample to claim C5: `Subscription::deliver` increments
`message_count` BEFORE invoking the callback, so a delivery whose
callback throws returns `Error` with `message_count` incremented —
not unchanged as the claim states. -/
theorem C5_counterexample :
    (subThrow.deliver msgT1).result = DeliveryResult.Error
  ∧ (subThrow.deliver msgT1).sub.message_count = subThrow.message_count + 1
  ∧ subThrow.message_count = 0 := by decide

/-- Claim C5 (amended): `message_count` increases by exactly one when
`deliver` returns `Success` or `Error` (the two results for which the
callback is attempted, the increment happening before the callback
runs) and is unchanged for `Rejected` and `Filtered`; it never
decreases. -/
theorem C5_message_count_change (s : Subscription) (m : Message) :
    (s.deliver m).sub.message_count =
      s.message_count +
        (if (s.deliver m).result = DeliveryResult.Success ∨
            (s.deliver m).result = DeliveryResult.Error then 1 else 0)
  ∧ s.message_count ≤ (s.deliver m).sub.message_count := by
  unfold Subscription.deliver
  split
  · simp
  · split
    · simp
    · split
      · simp
      · by_cases hcb : s.callback m = true
        · simp [hcb]
        · simp [hcb]

/-- Claim C6: `cancel` stores false into the `active` flag; no
operation sets it back to true (`deliver` preserves the flag and
`cancel` only clears it); and a `deliver` on a cancelled — or any
inactive — subscription returns `Rejected` without invoking the
callback and without changing `message_count` (the subscription state
is returned unchanged, so all subsequent delivers are likewise
rejected). -/
theorem C6_cancel_terminal (s : Subscription) (m : Message) :
    (s.cancel).active = false
  ∧ (s.deliver m).sub.active = s.active
  ∧ (s.cancel).deliver m = ⟨s.cancel, .Rejected, false⟩
  ∧ (s.active = false → s.deliver m = ⟨s, .Rejected, false⟩) := by
  refine ⟨rfl, ?_, rfl, ?_⟩
  · unfold Subscription.deliver
    split
    · rfl
    · split
      · rfl
      · split
        · rfl
        · by_cases hcb : s.callback m = true <;> simp [hcb]
  · intro h
    simp [Subscription.deliver, Subscription.is_active, h]

/-- Witness for C6: the inactive fixture `subOff` has its delivery
rejected with no state change and no callback invocation. -/
theorem C6_witness :
    subOff.active = false ∧ subOff.deliver msgT1 = ⟨subOff, .Rejected, false⟩ :=
  ⟨rfl, (C6_cancel_terminal subOff msgT1).2.2.2 rfl⟩

/-- Claim C3: a delivery whose callback throws returns
`DeliveryResult.Error` (the fault is absorbed at the `deliver`
boundary — in the model `deliver` is a total function, so nothing
propagates to the worker), and delivery to the other matching
subscriptions of the same message still proceeds: any independent
matching subscription whose own `deliver` yields `Success` appears in
the dispatch log with `Success` alongside the failing one's
`Error`. -/
theorem C3_callback_error_isolated (s1 s2 : Subscription) (b : Broker) (m : Message)
    (hact : s1.active = true) (hm1 : s1.matches m.topic = true)
    (hmax : s1.options.max_messages = 0 ∨ s1.message_count < s1.options.max_messages)
    (hcb : s1.callback m = false)
    (h1 : s1 ∈ b.subscriptions) (h2 : s2 ∈ b.subscriptions)
    (hm2 : s2.matches m.topic = true)
    (hs2 : (s2.deliver m).result = DeliveryResult.Success) :
    (s1.deliver m).result = DeliveryResult.Error
  ∧ (s1.id, DeliveryResult.Error) ∈ (b.process_message m).2
  ∧ (s2.id, DeliveryResult.Success) ∈ (b.process_message m).2 := by
  have herr : (s1.deliver m).result = DeliveryResult.Error := by
    simp only [Subscription.deliver, Subscription.is_active, hact, hm1,
      Bool.not_true, Bool.false_eq_true, if_false]
    rw [if_neg]
    · simp [hcb]
    · rintro ⟨hp, hge⟩
      rcases hmax with h | h <;> omega
  have hlog : (b.process_message m).2 =
      (b.subscriptions.filter (fun s => s.matches m.topic)).map
        (fun s => (s.id, (s.deliver m).result)) := rfl
  refine ⟨herr, ?_, ?_⟩
  · rw [hlog]
    have hmem : s1 ∈ b.subscriptions.filter (fun s => s.matches m.topic) :=
      List.mem_filter.mpr ⟨h1, hm1⟩
    have := List.mem_map_of_mem (fun s => (s.id, (s.deliver m).result)) hmem
    simpa [herr] using this
  · rw [hlog]
    have hmem : s2 ∈ b.subscriptions.filter (fun s => s.matches m.topic) :=
      List.mem_filter.mpr ⟨h2, hm2⟩
    have := List.mem_map_of_mem (fun s => (s.id, (s.deliver m).result)) hmem
    simpa [hs2] using this

/-- Witness for C3: in `brokerTwo` the throwing subscription `se`
gets `Error` while the independent subscription `so` on the same
message still gets `Success`. -/
theorem C3_witness :
    (subThrow.deliver msgT1).result = DeliveryResult.Error
  ∧ (subThrow.id, DeliveryResult.Error) ∈ (brokerTwo.process_message msgT1).2
  ∧ (subOk.id, DeliveryResult.Success) ∈ (brokerTwo.process_message msgT1).2 :=
  C3_callback_error_isolated subThrow subOk brokerTwo msgT1 rfl (by decide)
    (Or.inl rfl) rfl
    (by show subThrow ∈ [subThrow, subOk]; exact List.mem_cons_self _ _)
    (by show subOk ∈ [subThrow, subOk];
        exact List.mem_cons_of_mem _ (List.mem_cons_self _ _))
    (by decide) rfl

/-- Claim C2: for every processed message, `deliver` is invoked
exactly once on each registry subscription whose filter matches the
message's topic and on no other subscription (the dispatch log
contains each matching subscription's id exactly once, a
non-matching id zero times, and every log entry stems from a
matching subscription with that subscription's delivery result), and
`delivered_messages` grows by exactly the number of `Success`
results among those calls. -/
theorem C2_dispatch_and_count (b : Broker) (m : Message)
    (hids : (b.subscriptions.map Subscription.id).Nodup) :
    (∀ s ∈ b.subscriptions, s.matches m.topic = true →
        ((b.process_message m).2.map Prod.fst).count s.id = 1)
  ∧ (∀ s ∈ b.subscriptions, s.matches m.topic = false →
        ((b.process_message m).2.map Prod.fst).count s.id = 0)
  ∧ (∀ p ∈ (b.process_message m).2, ∃ s, s ∈ b.subscriptions ∧
        p.1 = s.id ∧ s.matches m.topic = true ∧ p.2 = (s.deliver m).result)
  ∧ (b.process_message m).1.delivered_messages =
      b.delivered_messages +
        ((b.process_message m).2.filter
          (fun p => p.2 == DeliveryResult.Success)).length := by
  have hlog : (b.process_message m).2 =
      (b.subscriptions.filter (fun s => s.matches m.topic)).map
        (fun s => (s.id, (s.deliver m).result)) := rfl
  have hfst : (b.process_message m).2.map Prod.fst =
      (b.subscriptions.filter (fun s => s.matches m.topic)).map Subscription.id := by
    rw [hlog, List.map_map]
    rfl
  have hnd : ((b.subscriptions.filter (fun s => s.matches m.topic)).map
      Subscription.id).Nodup :=
    List.Nodup.sublist (List.Sublist.map _ (List.filter_sublist _)) hids
  refine ⟨?_, ?_, ?_, ?_⟩
  · intro s hs hm
    rw [hfst]
    exact List.count_eq_one_of_mem hnd
      (List.mem_map_of_mem _ (List.mem_filter.mpr ⟨hs, hm⟩))
  · intro s hs hm
    rw [hfst, List.count_eq_zero]
    intro hmem
    obtain ⟨s', hs', hid⟩ := List.mem_map.mp hmem
    have hsub := List.mem_filter.mp hs'
    have heq : s' = s := List.inj_on_of_nodup_map hids hsub.1 hs hid
    rw [heq] at hsub
    rw [hm] at hsub
    exact Bool.false_ne_true hsub.2
  · intro p hp
    rw [hlog] at hp
    obtain ⟨s, hsf, rfl⟩ := List.mem_map.mp hp
    exact ⟨s, (List.mem_filter.mp hsf).1, rfl, (List.mem_filter.mp hsf).2, rfl⟩
  · have hd : (b.process_message m).1.delivered_messages =
        b.delivered_messages +
          ((b.subscriptions.filter (fun s => s.matches m.topic)).filter
            (fun s => (s.deliver m).result == DeliveryResult.Success)).length := rfl
    rw [hd, hlog]
    congr 1
    rw [← List.countP_eq_length_filter, ← List.countP_eq_length_filter,
      List.countP_map]
    rfl

/-- Witness for C2: in `brokerTwo` (distinct ids `se`, `so`), the
matching subscription `se` appears exactly once in the dispatch log
and the delivered counter grows by the number of `Success`
results. -/
theorem C2_witness :
    ((brokerTwo.process_message msgT1).2.map Prod.fst).count subThrow.id = 1
  ∧ (brokerTwo.process_message msgT1).1.delivered_messages =
      brokerTwo.delivered_messages +
        ((brokerTwo.process_message msgT1).2.filter
          (fun p => p.2 == DeliveryResult.Success)).length :=
  ⟨(C2_dispatch_and_count brokerTwo msgT1 (by decide)).1 subThrow
     (by show subThrow ∈ [subThrow, subOk]; exact List.mem_cons_self _ _) (by decide),
   (C2_dispatch_and_count brokerTwo msgT1 (by decide)).2.2.2⟩

/-- Claim C10: the `topic_str` argument of `Broker::publish` has no
effect: on any broker state and message, publishing under two
different topic strings returns the same result and the same broker
state, and the subsequent dispatch of any message (which matches on
the topic stored inside the message, not on any publish argument) is
likewise identical. -/
theorem C10_topic_argument_ignored (b : Broker) (t1 t2 : List Char) (m m2 : Message) :
    b.publish t1 m = b.publish t2 m
  ∧ (b.publish t1 m).1.process_message m2 = (b.publish t2 m).1.process_message m2 :=
  ⟨rfl, rfl⟩

/-- Sequential publishes on a running broker with a bounded queue:
with initial queue occupancy at most the bound, the first
`bound - occupancy` publishes succeed, all later ones fail, and the
published counter grows by the full number of attempts. -/
theorem seqPublish_bounded (t : List Char) (msgs : List Message) : ∀ b : Broker,
    b.running = true → 0 < b.config.max_queue_size →
    b.queue.length ≤ b.config.max_queue_size →
    (b.seqPublish t msgs).2 =
        List.replicate (min (b.config.max_queue_size - b.queue.length) msgs.length) true ++
          List.replicate (msgs.length - (b.config.max_queue_size - b.queue.length)) false
    ∧ (b.seqPublish t msgs).1.published_messages = b.published_messages + msgs.length := by
  induction msgs with
  | nil =>
    intro b hrun hK hq
    constructor
    · simp [Broker.seqPublish]
    · simp [Broker.seqPublish]
  | cons m ms ih =>
    intro b hrun hK hq
    have hnot : (!b.running) = false := by rw [hrun]; rfl
    have hstep : b.seqPublish t (m :: ms) =
        (((b.publish t m).1.seqPublish t ms).1,
          (b.publish t m).2 :: ((b.publish t m).1.seqPublish t ms).2) := rfl
    by_cases hfull : b.config.max_queue_size ≤ b.queue.length
    · have hpub : b.publish t m =
          ({ b with published_messages := b.published_messages + 1 }, false) := by
        simp only [Broker.publish, hnot, Bool.false_eq_true, if_false, ite_self]
        rw [if_pos]
        exact ⟨hK, hfull⟩
      rw [hstep, hpub]
      obtain ⟨ih1, ih2⟩ :=
        ih { b with published_messages := b.published_messages + 1 } hrun hK hq
      constructor
      · dsimp only at ih1 ⊢
        rw [ih1]
        have h0 : b.config.max_queue_size - b.queue.length = 0 := by omega
        rw [h0]
        simp [List.replicate_succ]
      · dsimp only at ih2 ⊢
        rw [ih2]
        simp only [List.length_cons]
        omega
    · have hlt : b.queue.length < b.config.max_queue_size := by omega
      have hpub : b.publish t m =
          ({ b with published_messages := b.published_messages + 1,
                    queue := b.queue ++ [m] }, true) := by
        simp only [Broker.publish, hnot, Bool.false_eq_true, if_false, ite_self]
        rw [if_neg]
        rintro ⟨hp, hge⟩
        omega
      rw [hstep, hpub]
      obtain ⟨ih1, ih2⟩ :=
        ih { b with published_messages := b.published_messages + 1,
                    queue := b.queue ++ [m] } hrun hK
          (by dsimp only; rw [List.length_append]; simp; omega)
      constructor
      · dsimp only at ih1 ⊢
        rw [ih1, List.length_append]
        simp only [List.length_singleton]
        rw [show b.config.max_queue_size - b.queue.length =
            (b.config.max_queue_size - (b.queue.length + 1)) + 1 from by omega,
          List.length_cons, Nat.succ_min_succ, Nat.succ_sub_succ,
          List.replicate_succ, List.cons_append]
      · dsimp only at ih2 ⊢
        rw [ih2]
        simp only [List.length_cons]
        omega

/-- Counterexample to claim C1: publishing three messages to a
running broker with `max_queue_size = 2` and no worker gives results
true, true, false — but `published_messages` is 3, not `K = 2`: the
counter is incremented before the enqueue attempt and therefore also
counts the rejected publish. -/
theorem C1_counterexample :
    (brokerK2.seqPublish "t".toList [msgT1, msgT2, msgT3]).2 = [true, true, false]
  ∧ (brokerK2.seqPublish "t".toList [msgT1, msgT2, msgT3]).1.published_messages = 3
  ∧ ¬((brokerK2.seqPublish "t".toList [msgT1, msgT2, msgT3]).1.published_messages = 2) := by
  decide

/-- Claim C1 (amended): on a running broker with an empty bounded
queue of capacity `K > 0` and no worker dequeuing, out of `N > K`
sequential publishes exactly the first `K` return true and the
remaining `N - K` return false, regardless of each message's
priority — but `published_messages` ends at `N`, counting every
publish attempt on the running broker (the counter increments before
the enqueue check). -/
theorem C1_publish_backpressure (b : Broker) (t : List Char) (msgs : List Message)
    (hrun : b.running = true) (hq : b.queue = [])
    (hK : 0 < b.config.max_queue_size) (hN : b.config.max_queue_size < msgs.length) :
    (b.seqPublish t msgs).2 =
        List.replicate b.config.max_queue_size true ++
          List.replicate (msgs.length - b.config.max_queue_size) false
    ∧ (b.seqPublish t msgs).1.published_messages = b.published_messages + msgs.length := by
  obtain ⟨h1, h2⟩ := seqPublish_bounded t msgs b hrun hK (by rw [hq]; simp)
  have e1 : min (b.config.max_queue_size - b.queue.length) msgs.length =
      b.config.max_queue_size := by
    rw [hq]
    simp only [List.length_nil, Nat.sub_zero]
    omega
  have e2 : msgs.length - (b.config.max_queue_size - b.queue.length) =
      msgs.length - b.config.max_queue_size := by
    rw [hq]
    simp
  refine ⟨?_, h2⟩
  rw [h1, e1, e2]

/-- Witness for C1: the fixture broker with `K = 2` and three
messages of mixed priorities realizes the amended claim. -/
theorem C1_witness :
    brokerK2.running = true ∧ brokerK2.queue = []
  ∧ 0 < brokerK2.config.max_queue_size
  ∧ brokerK2.config.max_queue_size < ([msgT1, msgT2, msgT3] : List Message).length
  ∧ (brokerK2.seqPublish "t".toList [msgT1, msgT2, msgT3]).2 =
      List.replicate brokerK2.config.max_queue_size true ++
        List.replicate (([msgT1, msgT2, msgT3] : List Message).length -
          brokerK2.config.max_queue_size) false
  ∧ (brokerK2.seqPublish "t".toList [msgT1, msgT2, msgT3]).1.published_messages =
      brokerK2.published_messages + ([msgT1, msgT2, msgT3] : List Message).length :=
  ⟨rfl, rfl, by decide, by decide,
   (C1_publish_backpressure brokerK2 "t".toList [msgT1, msgT2, msgT3] rfl rfl
     (by decide) (by decide)).1,
   (C1_publish_backpressure brokerK2 "t".toList [msgT1, msgT2, msgT3] rfl rfl
     (by decide) (by decide)).2⟩

end PubSub
